import Mathlib

/-!
Verification development for the snui background fetch-and-cache subsystem.

The definitions below are a shallow embedding of the Rust source:
  * `current_buffer`   from src/state.rs (the window selector),
  * `LruCache`         the behaviour of the `lru` crate (v0.6) cache used by
                       `State` (list of entries, most-recently-used first),
  * `set_content`, `bufferStep`, `buffer_posts`  from src/state.rs,
  * `Fetcher`          from src/fetch.rs (in-flight counter, channel, reset).

`f32` arithmetic in the source is modelled over `ℚ` at two levels of
refinement.  `current_buffer` computes the products `ratio * amount` and
`(1 - ratio) * amount` exactly; this agrees with the machine arithmetic for
the dyadic values of every concrete scenario (0.75, 0.25, 10, 25, 50) and,
as far as the proven bounds go (the two rounded sides summing to at most
`amount + 1`), for every `f32` ratio in [0, 1] once `amount ≤ 50` (the
program's clamped configuration range).  For unbounded `amount` the cast
`amount as f32` itself rounds (for `amount ≥ 2^24`), which exact `ℚ`
multiplication does not capture; `current_buffer_f32` refines the model by
applying IEEE round-to-nearest-even (`f32round`) to the cast, the
subtraction and each product, exactly as the hardware does.  `f32::round`
rounds half away from zero, and `as usize` saturates below at 0; both are
modelled explicitly.
-/

set_option maxRecDepth 8192

namespace Snui

/-- Models `f32::round`: round to nearest, ties away from zero. -/
def rustRound (q : ℚ) : ℤ :=
  if 0 ≤ q then ⌊q + 1/2⌋ else -⌊-q + 1/2⌋

/-- Models `&vec[a..b]` on a vector of length `len`: the slice bounds, or
`none` when the bounds are invalid and the indexing panics. -/
def rustSlice (a b len : ℕ) : Option (ℕ × ℕ) :=
  if a ≤ b ∧ b ≤ len then some (a, b) else none

/-- The window selector `current_buffer` from src/state.rs, returning the
index range of the produced slice (`none` models a slice-bounds panic):

  let right_side = (ratio * amount as f32).round() as usize;
  let left_side = ((1f32 - ratio) * amount as f32).round() as usize;
  let len = vec.len();
  if len <= amount \x7b &vec[..] \x7d
  else if idx.checked_sub(left_side).is_none() \x7b &vec[0..idx + right_side] \x7d
  else if idx + right_side > len \x7b &vec[idx - left_side..len - 1] \x7d
  else \x7b &vec[idx - left_side..idx + right_side] \x7d

The two f32 products are computed exactly over ℚ here; see
`current_buffer_f32` below for the variant that also models the rounding of
the `amount as f32` cast and of each f32 operation, which matters only once
`amount` leaves the program's clamped range (it exceeds 2^24). -/
def current_buffer (len idx amount : ℕ) ( ratio : ℚ) : Option (ℕ × ℕ) :=
  let right_side := (rustRound ( ratio * amount)).toNat
  let left_side := (rustRound ((1 - ratio) * amount)).toNat
  if len ≤ amount then some (0, len)
  else if idx < left_side then rustSlice 0 (idx + right_side) len
  else if len < idx + right_side then rustSlice (idx - left_side) (len - 1) len
  else rustSlice (idx - left_side) (idx + right_side) len

/-- Whether index `i` lies in the (optional) window range. -/
def windowMem (r : Option (ℕ × ℕ)) (i : ℕ) : Bool :=
  match r with
  | some (a, b) => decide (a ≤ i) && decide (i < b)
  | none => false

/-- Evaluation rule for `rustRound` on a nonnegative argument from the
characterisation of the floor. -/
lemma rustRound_eq (q : ℚ) (z : ℤ) (h0 : 0 ≤ q) (h1 : (z : ℚ) ≤ q + 1/2)
    (h2 : q + 1/2 < z + 1) : rustRound q = z := by
  rw [rustRound, if_pos h0]
  exact Int.floor_eq_iff.mpr ⟨h1, by exact_mod_cast h2⟩

/-- `current_buffer` with the two rounded sides abstracted, for case
analysis. -/
lemma cb_cases (len idx amount : ℕ) ( ratio : ℚ) (r l : ℕ)
    (hr : r = (rustRound ( ratio * amount)).toNat)
    (hl : l = (rustRound ((1 - ratio) * amount)).toNat) :
    current_buffer len idx amount ratio =
      if len ≤ amount then some (0, len)
      else if idx < l then rustSlice 0 (idx + r) len
      else if len < idx + r then rustSlice (idx - l) (len - 1) len
      else rustSlice (idx - l) (idx + r) len := by
  subst hr hl; rfl

/-- The two rounded sides together never exceed `amount + 1`. -/
lemma sides_sum_le (amount : ℕ) ( ratio : ℚ) (h0 : 0 ≤ ratio) (h1 : ratio ≤ 1) :
    (rustRound ( ratio * amount)).toNat + (rustRound ((1 - ratio) * amount)).toNat
      ≤ amount + 1 := by
  have hx : (0 : ℚ) ≤ ratio * amount := by positivity
  have hy : (0 : ℚ) ≤ (1 - ratio) * amount :=
    mul_nonneg (by linarith) (Nat.cast_nonneg amount)
  rw [rustRound, if_pos hx, rustRound, if_pos hy]
  have ha : 0 ≤ ⌊ ratio * amount + 1/2⌋ := Int.floor_nonneg.mpr (by linarith)
  have hb : 0 ≤ ⌊(1 - ratio) * amount + 1/2⌋ := Int.floor_nonneg.mpr (by linarith)
  have hs : ⌊ ratio * amount + 1/2⌋ + ⌊(1 - ratio) * amount + 1/2⌋
      ≤ (amount : ℤ) + 1 := by
    have l1 := Int.floor_le ( ratio * (amount : ℚ) + 1/2)
    have l2 := Int.floor_le ((1 - ratio) * (amount : ℚ) + 1/2)
    have hq : ((⌊ ratio * (amount : ℚ) + 1/2⌋ + ⌊(1 - ratio) * (amount : ℚ) + 1/2⌋ : ℤ) : ℚ)
        ≤ (amount : ℚ) + 1 := by push_cast; nlinarith
    exact_mod_cast hq
  omega

/-- Concrete right side for ratio 3/4, amount 10: round(7.5) = 8. -/
lemma right_side_ten : (rustRound ((3/4 : ℚ) * ((10 : ℕ) : ℚ))).toNat = 8 := by
  rw [rustRound_eq ((3/4 : ℚ) * ((10 : ℕ) : ℚ)) 8 (by norm_num) (by norm_num) (by norm_num)]
  rfl

/-- Concrete left side for ratio 3/4, amount 10: round(2.5) = 3 (Rust rounds
ties away from zero). -/
lemma left_side_ten : (rustRound ((1 - (3/4 : ℚ)) * ((10 : ℕ) : ℚ))).toNat = 3 := by
  rw [rustRound_eq ((1 - (3/4 : ℚ)) * ((10 : ℕ) : ℚ)) 3 (by norm_num) (by norm_num) (by norm_num)]
  rfl

/-- Scenario A evaluation: the interior branch. -/
lemma cb_eval_A : current_buffer 100 50 10 (3/4) = some (47, 58) := by
  rw [cb_cases 100 50 10 (3/4) 8 3 right_side_ten.symm left_side_ten.symm]
  norm_num [rustSlice]

/-- Scenario C evaluation: the end-clamped branch ends at `len - 1`. -/
lemma cb_eval_C : current_buffer 100 99 10 (3/4) = some (96, 99) := by
  rw [cb_cases 100 99 10 (3/4) 8 3 right_side_ten.symm left_side_ten.symm]
  norm_num [rustSlice]

/-- Evaluation with the viewed index beyond the vector: slice bounds are
invalid, i.e. the code panics. -/
lemma cb_eval_overrun : current_buffer 11 20 10 (3/4) = none := by
  rw [cb_cases 11 20 10 (3/4) 8 3 right_side_ten.symm left_side_ten.symm]
  norm_num [rustSlice]

/-- Branch analysis of the selector with abstract sides: the window always
exists (no panic) when the focus index is inside the vector. -/
lemma cb_isSome_aux (len idx amount r l : ℕ) (hla : amount < len) (hidx : idx < len)
    (hsum : r + l ≤ amount + 1) :
    (if len ≤ amount then some (0, len)
     else if idx < l then rustSlice 0 (idx + r) len
     else if len < idx + r then rustSlice (idx - l) (len - 1) len
     else rustSlice (idx - l) (idx + r) len).isSome = true := by
  rw [if_neg (by omega)]
  split_ifs with h2 h3
  · rw [rustSlice, if_pos (by omega)]; rfl
  · rw [rustSlice, if_pos (by omega)]; rfl
  · rw [rustSlice, if_pos (by omega)]; rfl

/-- Branch analysis of the selector with abstract sides: exactly when the
focus index lies inside the produced window. -/
lemma cb_mem_aux (len idx amount r l : ℕ) (hla : amount < len) (hidx : idx < len)
    (hsum : r + l ≤ amount + 1) :
    windowMem
      (if len ≤ amount then some (0, len)
       else if idx < l then rustSlice 0 (idx + r) len
       else if len < idx + r then rustSlice (idx - l) (len - 1) len
       else rustSlice (idx - l) (idx + r) len) idx = true ↔
      (1 ≤ r ∧ (idx + 1 < len ∨ idx + r ≤ len)) := by
  rw [if_neg (by omega)]
  split_ifs with h2 h3
  · rw [rustSlice, if_pos (by omega)]
    simp only [windowMem, Bool.and_eq_true, decide_eq_true_iff]
    omega
  · rw [rustSlice, if_pos (by omega)]
    simp only [windowMem, Bool.and_eq_true, decide_eq_true_iff]
    omega
  · rw [rustSlice, if_pos (by omega)]
    simp only [windowMem, Bool.and_eq_true, decide_eq_true_iff]
    omega

/-- Round a rational to the nearest integer, ties to even: the IEEE-754
default rounding used for every f32 arithmetic result and for the
`usize as f32` cast. -/
def roundHalfEven (x : ℚ) : ℤ :=
  if x - ⌊x⌋ < 1/2 then ⌊x⌋
  else if 1/2 < x - ⌊x⌋ then ⌊x⌋ + 1
  else if ⌊x⌋ % 2 = 0 then ⌊x⌋ else ⌊x⌋ + 1

/-- Round a nonnegative rational to IEEE binary32 (24-bit significand,
round-to-nearest ties-to-even, minimum exponent -126; overflow above 2^128
is not modelled since no value here approaches it).  This models the
`amount as f32` cast and the result of each f32 subtraction and
multiplication in `current_buffer`. -/
def f32round (q : ℚ) : ℚ :=
  if 0 < q then
    (2 : ℚ) ^ (max (Int.log 2 q) (-126) - 23)
      * (roundHalfEven (q / (2 : ℚ) ^ (max (Int.log 2 q) (-126) - 23)) : ℤ)
  else 0

/-- The window selector with the f32 arithmetic modelled step by step:
`amount as f32` is rounded, `1f32 - ratio` is rounded, and each product is
rounded, each to the nearest binary32 value (the `.round()` result and the
comparisons and subtractions on usize values are exact).  `ratio` is the
f32 configuration value, assumed exactly representable. -/
def current_buffer_f32 (len idx amount : ℕ) ( ratio : ℚ) : Option (ℕ × ℕ) :=
  let amount_f := f32round amount
  let right_side := (rustRound (f32round ( ratio * amount_f))).toNat
  let left_side := (rustRound (f32round (f32round (1 - ratio) * amount_f))).toNat
  if len ≤ amount then some (0, len)
  else if idx < left_side then rustSlice 0 (idx + right_side) len
  else if len < idx + right_side then rustSlice (idx - left_side) (len - 1) len
  else rustSlice (idx - left_side) (idx + right_side) len

/-- `Int.log 2` is characterised by the enclosing binade. -/
lemma int_log_eq (q : ℚ) (e : ℤ) (hq : 0 < q) (h1 : ((2 : ℕ) : ℚ) ^ e ≤ q)
    (h2 : q < ((2 : ℕ) : ℚ) ^ (e + 1)) : Int.log 2 q = e :=
  le_antisymm (by have := (Int.lt_zpow_iff_log_lt (by norm_num) hq).mp h2; omega)
    ((Int.zpow_le_iff_le_log (by norm_num) hq).mp h1)

/-- `roundHalfEven` below the midpoint. -/
lemma roundHalfEven_eq_of_lt (x : ℚ) (n : ℤ) (hfl : ⌊x⌋ = n) (h : x - n < 1/2) :
    roundHalfEven x = n := by
  rw [roundHalfEven, hfl, if_pos h]

/-- `roundHalfEven` above the midpoint. -/
lemma roundHalfEven_eq_of_gt (x : ℚ) (n : ℤ) (hfl : ⌊x⌋ = n) (h : 1/2 < x - n) :
    roundHalfEven x = n + 1 := by
  rw [roundHalfEven, hfl, if_neg (by linarith), if_pos h]

/-- `roundHalfEven` on an exact integer value. -/
lemma roundHalfEven_eq_int (x : ℚ) (n : ℤ) (h : x = (n : ℚ)) : roundHalfEven x = n := by
  subst h
  exact roundHalfEven_eq_of_lt _ n (Int.floor_intCast n) (by norm_num)

/-- Evaluation rule for `f32round` given the binade and the rounded
significand. -/
lemma f32round_eval (q : ℚ) (e n : ℤ) (hq : 0 < q) (he : -126 ≤ e)
    (h1 : ((2 : ℕ) : ℚ) ^ e ≤ q) (h2 : q < ((2 : ℕ) : ℚ) ^ (e + 1))
    (hn : roundHalfEven (q / (2 : ℚ) ^ (e - 23)) = n) :
    f32round q = (2 : ℚ) ^ (e - 23) * n := by
  rw [f32round, if_pos hq, int_log_eq q e hq h1 h2, max_eq_left he, hn]

/-- The cast `1073741889 as f32` (that is 2^30 + 65) rounds UP to
2^30 + 128: the ulp in [2^30, 2^31) is 128 and 65 is past the midpoint. -/
lemma f32round_big_amount : f32round ((1073741889 : ℕ) : ℚ) = (1073741952 : ℚ) := by
  have hn : roundHalfEven (((1073741889 : ℕ) : ℚ) / (2 : ℚ) ^ ((30 : ℤ) - 23))
      = 8388609 := by
    have h7 : ((30 : ℤ) - 23) = 7 := by norm_num
    rw [h7]
    refine roundHalfEven_eq_of_gt _ 8388608 ?_ ?_
    · rw [Int.floor_eq_iff]
      constructor
      · push_cast
        norm_num
      · push_cast
        norm_num
    · push_cast
      norm_num
  have h := f32round_eval ((1073741889 : ℕ) : ℚ) 30 8388609 (by push_cast; norm_num)
    (by norm_num) (by push_cast; norm_num) (by push_cast; norm_num) hn
  rw [h]
  norm_num

/-- `1f32 - 0.5` is exact. -/
lemma f32round_half : f32round (1 - (1/2 : ℚ)) = (1/2 : ℚ) := by
  have hn : roundHalfEven ((1 - (1/2 : ℚ)) / (2 : ℚ) ^ ((-1 : ℤ) - 23)) = 8388608 := by
    refine roundHalfEven_eq_int _ 8388608 ?_
    norm_num
  have h := f32round_eval (1 - (1/2 : ℚ)) (-1) 8388608 (by norm_num) (by norm_num)
    (by norm_num) (by norm_num) hn
  rw [h]
  norm_num

/-- `0.5f32 * 1073741952f32 = 536870976f32` is exact (a multiple of the ulp
64 of its binade [2^29, 2^30)). -/
lemma f32round_big_product :
    f32round ((1/2 : ℚ) * (1073741952 : ℚ)) = (536870976 : ℚ) := by
  have hn : roundHalfEven (((1/2 : ℚ) * (1073741952 : ℚ)) / (2 : ℚ) ^ ((29 : ℤ) - 23))
      = 8388609 := by
    refine roundHalfEven_eq_int _ 8388609 ?_
    norm_num
  have h := f32round_eval ((1/2 : ℚ) * (1073741952 : ℚ)) 29 8388609 (by norm_num)
    (by norm_num) (by norm_num) (by norm_num) hn
  rw [h]
  norm_num

/-- The rounded side value 536870976 passed through `f32::round`. -/
lemma rustRound_big : rustRound ((536870976 : ℚ)) = (536870976 : ℤ) :=
  rustRound_eq _ _ (by norm_num) (by norm_num) (by norm_num)

/-- C2 counterexample: with total_items = 100, focus_index = 99,
buffer_size = 10, front_ratio = 0.75 the selector does NOT return
[90, 100) as the claim states. -/
theorem scenarioC_claim_false : current_buffer 100 99 10 (3/4) ≠ some (90, 100) := by
  rw [cb_eval_C]; decide

/-- C2 amended: at those parameters the window is [96, 99): the end-clamped
branch ends at total_items - 1 (the last item is excluded) and starts at
focus_index - front, with front = round(0.25 * 10) = 3 since Rust rounds
ties away from zero; the computation does not underflow or panic. -/
theorem scenarioC_amended : current_buffer 100 99 10 (3/4) = some (96, 99) :=
  cb_eval_C

/-- C6 counterexample: with total_items = 100, focus_index = 50,
buffer_size = 10, front_ratio = 0.75 the selector does NOT return
[48, 58) as the claim states (the claim computes front = round(2.5) = 2,
but Rust rounds ties away from zero). -/
theorem scenarioA_claim_false : current_buffer 100 50 10 (3/4) ≠ some (48, 58) := by
  rw [cb_eval_A]; decide

/-- C6 amended: back = round(0.75 * 10) = 8 and front = round(0.25 * 10) = 3
(ties away from zero), so the window is [47, 58). -/
theorem scenarioA_amended : current_buffer 100 50 10 (3/4) = some (47, 58) :=
  cb_eval_A

/-- C9: whenever total_items <= buffer_size (with buffer_size in [1, 50] and
front_ratio in [0, 1]), the selector returns the full range [0, total_items). -/
theorem cb_full_when_small (len idx amount : ℕ) ( ratio : ℚ)
    (h1 : 1 ≤ amount) (h50 : amount ≤ 50) (hr0 : 0 ≤ ratio) (hr1 : ratio ≤ 1)
    (hle : len ≤ amount) :
    current_buffer len idx amount ratio = some (0, len) := by
  rw [cb_cases len idx amount ratio _ _ rfl rfl, if_pos hle]

/-- C9 witness at total_items = 5, focus_index = 3, buffer_size = 10,
front_ratio = 1/2. -/
theorem cb_full_when_small_witness : current_buffer 5 3 10 (1/2) = some (0, 5) :=
  cb_full_when_small 5 3 10 (1/2) (by norm_num) (by norm_num) (by norm_num)
    (by norm_num) (by norm_num)

/-- C10 counterexample: the never-panics guarantee fails inside the claim's
own domain once the f32 rounding of `amount as f32` is modelled.  At
amount = 2^30 + 65 = 1073741889 (cast rounds up to 2^30 + 128), ratio =
0.5, len = amount + 1 and idx = 536870975 < len, both sides evaluate to
536870976, the front-clamped branch is taken and it slices
&vec[0..1073741951] on a vector of length 1073741890: invalid bounds, a
panic, although idx < len, amount >= 1 and ratio is in [0, 1]. -/
theorem cb_no_panic_claim_false :
    current_buffer_f32 1073741890 536870975 1073741889 (1/2) = none
    ∧ 536870975 < 1073741890 ∧ (1 : ℕ) ≤ 1073741889
    ∧ (0 : ℚ) ≤ 1/2 ∧ (1/2 : ℚ) ≤ 1 := by
  refine ⟨?_, by norm_num, by norm_num, by norm_num, by norm_num⟩
  simp only [current_buffer_f32]
  rw [f32round_big_amount, f32round_half, f32round_big_product, rustRound_big,
    show ((536870976 : ℤ)).toNat = 536870976 from rfl]
  norm_num [rustSlice]

/-- C10 amended: the slice bounds are valid for every focus index idx < len
whenever the two rounded sides sum to at most amount + 1 — which holds for
every f32 front_ratio in [0, 1] when amount is in the program's clamped
range [1, 50], where the f32 rounding errors (at most 50 * 2^-23 in total)
cannot push the sum past the next integer; in particular the exact-side
model never panics there.  The guarantee is lost when idx >= vec.len()
(which buffer_posts can supply after filters shrink the visible sequence
below the viewed index): at len = 11, idx = 20, amount = 10, ratio = 0.75
the slice bounds are invalid.  It is also lost for unclamped amounts of
2^24 and beyond, where the cast `amount as f32` rounds (see the
counterexample). -/
theorem cb_no_panic_amended :
    (∀ (len idx amount r l : ℕ), idx < len → r + l ≤ amount + 1 →
        (if len ≤ amount then some (0, len)
         else if idx < l then rustSlice 0 (idx + r) len
         else if len < idx + r then rustSlice (idx - l) (len - 1) len
         else rustSlice (idx - l) (idx + r) len).isSome = true)
    ∧ (∀ (len idx amount : ℕ) ( ratio : ℚ), 1 ≤ amount → amount ≤ 50 →
        0 ≤ ratio → ratio ≤ 1 → idx < len →
        (current_buffer len idx amount ratio).isSome = true)
    ∧ current_buffer 11 20 10 (3/4) = none := by
  refine ⟨?_, ?_, cb_eval_overrun⟩
  · intro len idx amount r l hidx hsum
    by_cases hla : len ≤ amount
    · rw [if_pos hla]; rfl
    · exact cb_isSome_aux len idx amount r l (by omega) hidx hsum
  · intro len idx amount ratio h1 h50 hr0 hr1 hidx
    by_cases hla : len ≤ amount
    · rw [cb_cases len idx amount ratio _ _ rfl rfl, if_pos hla]; rfl
    · rw [cb_cases len idx amount ratio _ _ rfl rfl]
      exact cb_isSome_aux len idx amount _ _ (by omega) hidx
        (sides_sum_le amount ratio hr0 hr1)

/-- C10 amended witness: the exact-side part applied at len = 100, idx = 50,
amount = 10, ratio = 3/4. -/
theorem cb_no_panic_amended_witness : (current_buffer 100 50 10 (3/4)).isSome = true :=
  cb_no_panic_amended.2.1 100 50 10 (3/4) (by norm_num) (by norm_num) (by norm_num)
    (by norm_num) (by norm_num)

/-- C3 counterexample: at total_items = 100, focus_index = 99,
buffer_size = 10, front_ratio = 0.75 (all within the claim's ranges and
with total_items > buffer_size), the returned window [96, 99) does not
contain the focus index 99. -/
theorem window_focus_claim_false :
    (10 < 100 ∧ 99 < 100 ∧ (1 : ℕ) ≤ 10 ∧ (10 : ℕ) ≤ 50
      ∧ (0 : ℚ) ≤ 3/4 ∧ (3/4 : ℚ) ≤ 1)
    ∧ windowMem (current_buffer 100 99 10 (3/4)) 99 = false := by
  refine ⟨⟨by norm_num, by norm_num, by norm_num, by norm_num, by norm_num, by norm_num⟩, ?_⟩
  rw [cb_eval_C]; rfl

/-- C3 amended: for total_items > buffer_size, buffer_size in [1, 50],
front_ratio in [0, 1] and focus_index < total_items, the window contains
focus_index exactly when back = round(front_ratio * buffer_size) >= 1 and
(focus_index < total_items - 1 or focus_index + back <= total_items); in
particular the focus index at the very end of the feed with back >= 2 is
NOT contained, because the end-clamped branch stops at total_items - 1. -/
theorem window_contains_focus_iff (len idx amount : ℕ) ( ratio : ℚ)
    (h1 : 1 ≤ amount) (h50 : amount ≤ 50) (hla : amount < len) (hidx : idx < len)
    (hr0 : 0 ≤ ratio) (hr1 : ratio ≤ 1) :
    windowMem (current_buffer len idx amount ratio) idx = true ↔
      (1 ≤ (rustRound ( ratio * amount)).toNat
        ∧ (idx + 1 < len ∨ idx + (rustRound ( ratio * amount)).toNat ≤ len)) := by
  rw [cb_cases len idx amount ratio _ _ rfl rfl]
  exact cb_mem_aux len idx amount _ _ hla hidx (sides_sum_le amount ratio hr0 hr1)

/-- C3 amended witness at total_items = 100, focus_index = 50,
buffer_size = 10, front_ratio = 3/4: back = 8 >= 1 and 51 < 100, so the
window contains the focus index. -/
theorem window_contains_focus_iff_witness :
    windowMem (current_buffer 100 50 10 (3/4)) 50 = true := by
  rw [window_contains_focus_iff 100 50 10 (3/4) (by norm_num) (by norm_num)
    (by norm_num) (by norm_num) (by norm_num) (by norm_num)]
  rw [right_side_ten]
  omega

/-- Models `lru::LruCache<PostId, V>` (v0.6, as constructed by
`LruCache::new(250)` in src/state.rs): the entry list is kept
most-recently-used first, so the least-recently-used entry is the last. -/
structure LruCache (V : Type) where
  cap : ℕ
  entries : List (ℕ × V)
deriving DecidableEq

/-- `LruCache::contains(&k)`: a peek, it does not touch recency. -/
def LruCache.contains {V : Type} (c : LruCache V) (k : ℕ) : Bool :=
  c.entries.any (fun e => e.1 == k)

/-- `LruCache::put(k, v)`: if the key is present, update its value and move
it to the front; otherwise, if the cache is at (or beyond) capacity first
evict the least-recently-used entry, then insert at the front. -/
def LruCache.put {V : Type} (c : LruCache V) (k : ℕ) (v : V) : LruCache V :=
  if c.contains k then
    { c with entries := (k, v) :: c.entries.filter (fun e => e.1 != k) }
  else
    { c with entries :=
        (k, v) :: (if c.cap ≤ c.entries.length then c.entries.dropLast else c.entries) }

/-- A fresh cache, as built by `LruCache::new(cap)` / `State::new` (cap 250). -/
def LruCache.empty (V : Type) (cap : ℕ) : LruCache V := ⟨cap, []⟩

/-- `State::set_content` from src/state.rs:

  if let Some(empty_content) = self.content_cache.get_mut(post_id) \x7b
      assert!(empty_content.is_none());
      *empty_content = Some(content);
  \x7d

`get_mut` touches recency (moves the entry to the front); the assertion
panicking is modelled by `none`. -/
def set_content {V : Type} (c : LruCache (Option V)) (post_id : ℕ) (content : V) :
    Option (LruCache (Option V)) :=
  match c.entries.find? (fun e => e.1 == post_id) with
  | none => some c
  | some e =>
    if e.2.isNone then
      some { c with entries :=
        (post_id, some content) :: c.entries.filter (fun x => x.1 != post_id) }
    else none

/-- One cache operation of the kind the spec's capacity property ranges
over: a mark-pending insertion as performed by `buffer_posts` (guarded by
`contains`), or a resolution via `set_content`. -/
inductive CacheOp (V : Type) where
  | markPending (post_id : ℕ)
  | resolve (post_id : ℕ) (content : V)

/-- Apply one cache operation; `none` models a panic of the `set_content`
assertion. -/
def applyOp {V : Type} (c : LruCache (Option V)) : CacheOp V → Option (LruCache (Option V))
  | CacheOp.markPending post_id =>
      some (if c.contains post_id then c else c.put post_id none)
  | CacheOp.resolve post_id content => set_content c post_id content

/-- Apply a sequence of cache operations. -/
def applyOps {V : Type} (c : LruCache (Option V)) : List (CacheOp V) → Option (LruCache (Option V))
  | [] => some c
  | op :: rest =>
    match applyOp c op with
    | none => none
    | some c2 => applyOps c2 rest

/-- Removing the occurrences of a key that is present makes the list
strictly shorter. -/
lemma length_filter_lt {V : Type} (l : List (ℕ × V)) (k : ℕ)
    (h : l.any (fun e => e.1 == k) = true) :
    (l.filter (fun e => e.1 != k)).length < l.length := by
  induction l with
  | nil => simp at h
  | cons x xs ih =>
    by_cases hx : x.1 = k
    · have hxb : (x.1 != k) = false := by simp [hx]
      have hle := List.length_filter_le (fun e => e.1 != k) xs
      simp [List.filter_cons, hxb]
      omega
    · have hxb : (x.1 != k) = true := by simp [hx]
      have hany : xs.any (fun e => e.1 == k) = true := by
        simp only [List.any_cons, Bool.or_eq_true] at h
        rcases h with h1 | h1
        · exact absurd (by simpa using h1) hx
        · exact h1
      have := ih hany
      simp [List.filter_cons, hxb]
      omega

/-- `put` never grows the cache beyond its capacity (for capacity >= 1). -/
lemma put_length_le {V : Type} (c : LruCache V) (k : ℕ) (v : V)
    (hcap : 1 ≤ c.cap) (h : c.entries.length ≤ c.cap) :
    (c.put k v).entries.length ≤ c.cap := by
  rw [LruCache.put]
  split_ifs with h1 h2
  · show ((k, v) :: c.entries.filter (fun e => e.1 != k)).length ≤ c.cap
    have := length_filter_lt c.entries k h1
    rw [List.length_cons]
    omega
  · show ((k, v) :: c.entries.dropLast).length ≤ c.cap
    have h3 := c.entries.length_dropLast
    rw [List.length_cons]
    omega
  · show ((k, v) :: c.entries).length ≤ c.cap
    rw [List.length_cons]
    omega

/-- `put` does not change the capacity field. -/
lemma put_cap {V : Type} (c : LruCache V) (k : ℕ) (v : V) : (c.put k v).cap = c.cap := by
  rw [LruCache.put]; split_ifs <;> rfl

/-- `set_content` never grows the cache and keeps the capacity. -/
lemma set_content_length_le {V : Type} (c : LruCache (Option V)) (post_id : ℕ)
    (content : V) (c2 : LruCache (Option V)) (h : set_content c post_id content = some c2) :
    c2.entries.length ≤ c.entries.length ∧ c2.cap = c.cap := by
  rw [set_content] at h
  cases hf : c.entries.find? (fun e => e.1 == post_id) with
  | none =>
    rw [hf] at h
    cases h
    exact ⟨le_refl _, rfl⟩
  | some e =>
    rw [hf] at h
    have h2 : (if e.2.isNone = true then
        some { c with entries :=
          (post_id, some content) :: c.entries.filter (fun x => x.1 != post_id) }
        else none) = some c2 := h
    by_cases he : e.2.isNone = true
    · rw [if_pos he] at h2
      cases h2
      have hpred := List.find?_some hf
      have hmem : e ∈ c.entries := List.mem_of_find?_eq_some hf
      have hany : c.entries.any (fun x => x.1 == post_id) = true :=
        List.any_eq_true.mpr ⟨e, hmem, hpred⟩
      have := length_filter_lt c.entries post_id hany
      constructor
      · show ((post_id, some content) :: c.entries.filter (fun x => x.1 != post_id)).length
          ≤ c.entries.length
        rw [List.length_cons]
        omega
      · rfl
    · rw [if_neg he] at h2
      cases h2

/-- Per-operation preservation: capacity field unchanged, length stays
bounded. -/
lemma applyOp_preserves {V : Type} (op : CacheOp V) (c c2 : LruCache (Option V))
    (hop : applyOp c op = some c2) (hcap : 1 ≤ c.cap) (hlen : c.entries.length ≤ c.cap) :
    c2.cap = c.cap ∧ c2.entries.length ≤ c.cap := by
  cases op with
  | markPending post_id =>
    rw [applyOp] at hop
    cases hop
    by_cases hcon : c.contains post_id = true
    · rw [if_pos hcon]
      exact ⟨rfl, hlen⟩
    · rw [if_neg hcon]
      exact ⟨put_cap c post_id none, put_length_le c post_id none hcap hlen⟩
  | resolve post_id content =>
    rw [applyOp] at hop
    have h2 := set_content_length_le c post_id content c2 hop
    exact ⟨h2.2, le_trans h2.1 hlen⟩

/-- C4: starting from a fresh cache of any capacity C >= 1, any sequence of
mark-pending insertions and resolutions leaves at most C entries; and a
mark-pending insertion of an absent key into a cache at capacity evicts
exactly the least-recently-used (last) entry. -/
theorem cache_capacity_bound (cap : ℕ) (hcap : 1 ≤ cap) :
    (∀ (ops : List (CacheOp ℕ)) (result : LruCache (Option ℕ)),
        applyOps (LruCache.empty (Option ℕ) cap) ops = some result →
        result.entries.length ≤ cap)
    ∧ (∀ (c : LruCache (Option ℕ)) (post_id : ℕ),
        c.cap = cap → c.contains post_id = false → c.entries.length = cap →
        (c.put post_id none).entries = (post_id, none) :: c.entries.dropLast) := by
  constructor
  · have main : ∀ (ops : List (CacheOp ℕ)) (c result : LruCache (Option ℕ)),
        c.cap = cap → c.entries.length ≤ cap →
        applyOps c ops = some result → result.entries.length ≤ cap := by
      intro ops
      induction ops with
      | nil =>
        intro c result hc hlen h
        rw [applyOps] at h
        cases h
        exact hlen
      | cons op rest ih =>
        intro c result hc hlen h
        rw [applyOps] at h
        cases hop : applyOp c op with
        | none =>
          rw [hop] at h
          cases h
        | some c2 =>
          rw [hop] at h
          have hstep := applyOp_preserves op c c2 hop (by omega) (by omega)
          exact ih c2 result (hstep.1.trans hc) (hc ▸ hstep.2) h
    intro ops result h
    refine main ops _ result rfl ?_ h
    show (List.length [] : ℕ) ≤ cap
    simp
  · intro c post_id hc hcon hlen
    rw [LruCache.put, if_neg (by simp [hcon]), if_pos (by omega)]

/-- C4 witness: capacity 2, marking 1, 2 then 3 pending (the spec's Scenario
D) ends with exactly the 2 entries for keys 3 and 2, key 1 evicted. -/
theorem cache_capacity_bound_witness :
    ((LruCache.mk 2 [(3, (none : Option ℕ)), (2, none)]) : LruCache (Option ℕ)).entries.length ≤ 2 :=
  (cache_capacity_bound 2 (by norm_num)).1
    [CacheOp.markPending 1, CacheOp.markPending 2, CacheOp.markPending 3]
    (LruCache.mk 2 [(3, (none : Option ℕ)), (2, none)]) (by decide)

/-- C8: applying a `ContentReady` outcome for a post index with no entry in
the content cache (e.g. evicted in the interim) is a no-op: `set_content`
does not panic, does not insert, and returns the cache unchanged. -/
theorem set_content_noop_absent (c : LruCache (Option ℕ)) (post_id content : ℕ)
    (h : c.contains post_id = false) : set_content c post_id content = some c := by
  have hf : c.entries.find? (fun e => e.1 == post_id) = none := by
    rw [List.find?_eq_none]
    intro x hx hbeq
    rw [LruCache.contains] at h
    have : c.entries.any (fun e => e.1 == post_id) = true :=
      List.any_eq_true.mpr ⟨x, hx, hbeq⟩
    rw [h] at this
    exact Bool.false_ne_true this
  rw [set_content, hf]

/-- C8 witness: a cache holding only key 5, receiving content for absent
key 9, is returned unchanged. -/
theorem set_content_noop_absent_witness :
    set_content ((LruCache.mk 250 [(5, (none : Option ℕ))]) : LruCache (Option ℕ)) 9 7
      = some (LruCache.mk 250 [(5, (none : Option ℕ))]) :=
  set_content_noop_absent (LruCache.mk 250 [(5, (none : Option ℕ))]) 9 7 (by decide)

/-- One iteration of the loop body in `State::buffer_posts`:

  if !self.content_cache.contains(&post.post_id) \x7b
      self.content_cache.put(post.post_id, None);
      fetcher.get_content(post.inner.clone(), post.post_id)
  \x7d

The second component accumulates the post ids whose content fetch is
dispatched. -/
def bufferStep (st : LruCache (Option ℕ) × List ℕ) (post_id : ℕ) :
    LruCache (Option ℕ) × List ℕ :=
  if st.1.contains post_id then st
  else (st.1.put post_id none, st.2 ++ [post_id])

/-- `State::buffer_posts` from src/state.rs over the filtered visible
sequence of post ids: computes the window with `current_buffer`, then for
every post in the window not contained in the cache puts a pending (`none`)
entry and dispatches a content fetch.  Returns the updated cache and the
dispatched post ids; `none` models the slice panic. -/
def buffer_posts (posts : List ℕ) (viewed amount : ℕ) ( ratio : ℚ)
    (cache : LruCache (Option ℕ)) : Option (LruCache (Option ℕ) × List ℕ) :=
  match current_buffer posts.length viewed amount ratio with
  | none => none
  | some (a, b) => some (((posts.drop a).take (b - a)).foldl bufferStep (cache, []))

/-- A `put` of an absent key into a cache below capacity just conses the
entry. -/
lemma put_new_entries {V : Type} (c : LruCache V) (k : ℕ) (v : V)
    (hcon : c.contains k = false) (hlen : c.entries.length < c.cap) :
    c.put k v = { c with entries := (k, v) :: c.entries } := by
  rw [LruCache.put, if_neg (by simp [hcon]), if_neg (by omega)]

/-- Fold invariant for the buffering loop when no eviction can happen:
capacity preserved, containment monotone, every processed key contained,
and length grows by at most the window length. -/
lemma bufferFold_spec (w : List ℕ) : ∀ (c : LruCache (Option ℕ)) (acc : List ℕ),
    c.entries.length + w.length ≤ c.cap →
    ((w.foldl bufferStep (c, acc)).1.cap = c.cap
     ∧ (∀ k, c.contains k = true → (w.foldl bufferStep (c, acc)).1.contains k = true)
     ∧ (∀ k ∈ w, (w.foldl bufferStep (c, acc)).1.contains k = true)
     ∧ (w.foldl bufferStep (c, acc)).1.entries.length ≤ c.entries.length + w.length) := by
  induction w with
  | nil =>
    intro c acc h
    exact ⟨rfl, fun k hk => hk, by simp, by simp⟩
  | cons pid rest ih =>
    intro c acc h
    rw [List.foldl_cons]
    by_cases hcon : c.contains pid = true
    · have hstep : bufferStep (c, acc) pid = (c, acc) := by
        rw [bufferStep, if_pos hcon]
      rw [hstep]
      have h2 : c.entries.length + rest.length ≤ c.cap := by
        rw [List.length_cons] at h; omega
      obtain ⟨g1, g2, g3, g4⟩ := ih c acc h2
      refine ⟨g1, g2, fun k hk => ?_, ?_⟩
      · rcases List.mem_cons.mp hk with rfl | hk2
        · exact g2 k hcon
        · exact g3 k hk2
      · rw [List.length_cons]; omega
    · have hcon2 : c.contains pid = false := by
        cases hcc : c.contains pid
        · rfl
        · exact absurd hcc hcon
      have hlt : c.entries.length < c.cap := by
        rw [List.length_cons] at h; omega
      have hput := put_new_entries c pid (none : Option ℕ) hcon2 hlt
      have hstep : bufferStep (c, acc) pid = (c.put pid none, acc ++ [pid]) := by
        rw [bufferStep, if_neg (by simp [hcon2])]
      rw [hstep]
      have hc2cap : (c.put pid none).cap = c.cap := put_cap c pid none
      have hc2len : (c.put pid none).entries.length = c.entries.length + 1 := by
        rw [hput, List.length_cons]
      have hc2keep : ∀ k, c.contains k = true → (c.put pid none).contains k = true := by
        intro k hk
        rw [hput]
        show ((pid, (none : Option ℕ)) :: c.entries).any (fun e => e.1 == k) = true
        rw [LruCache.contains] at hk
        rw [List.any_cons, hk, Bool.or_true]
      have hc2pid : (c.put pid none).contains pid = true := by
        rw [hput]
        show ((pid, (none : Option ℕ)) :: c.entries).any (fun e => e.1 == pid) = true
        rw [List.any_cons]
        simp
      have hrest : (c.put pid none).entries.length + rest.length ≤ (c.put pid none).cap := by
        rw [hc2cap, hc2len]
        rw [List.length_cons] at h
        omega
      obtain ⟨g1, g2, g3, g4⟩ := ih (c.put pid none) (acc ++ [pid]) hrest
      refine ⟨g1.trans hc2cap, fun k hk => g2 k (hc2keep k hk), fun k hk => ?_, ?_⟩
      · rcases List.mem_cons.mp hk with rfl | hk2
        · exact g2 k hc2pid
        · exact g3 k hk2
      · rw [hc2len] at g4
        rw [List.length_cons]
        omega

/-- If every window key is already contained, the buffering loop does
nothing and dispatches nothing. -/
lemma bufferFold_noop (w : List ℕ) : ∀ (c : LruCache (Option ℕ)) (acc : List ℕ),
    (∀ k ∈ w, c.contains k = true) → w.foldl bufferStep (c, acc) = (c, acc) := by
  induction w with
  | nil => intro c acc _; rfl
  | cons pid rest ih =>
    intro c acc h
    rw [List.foldl_cons]
    have hstep : bufferStep (c, acc) pid = (c, acc) := by
      rw [bufferStep, if_pos (h pid (List.mem_cons_self pid rest))]
    rw [hstep]
    exact ih c acc (fun k hk => h k (List.mem_cons_of_mem pid hk))

/-- Window evaluation for a 2-item visible sequence under the default
options (buffer_amount 25, buffer_ratio 0.75): the full range. -/
lemma cb_eval_two : current_buffer 2 0 25 (3/4) = some (0, 2) := by
  rw [cb_cases 2 0 25 (3/4) _ _ rfl rfl, if_pos (by norm_num)]

/-- C5 amended: if no eviction can occur during the first run (cache
occupancy plus visible-sequence length within capacity), then running
`buffer_posts` twice with unchanged focus index dispatches nothing on the
second run and leaves the cache unchanged. -/
theorem buffer_posts_idempotent (posts : List ℕ) (viewed amount : ℕ) ( ratio : ℚ)
    (cache c1 : LruCache (Option ℕ)) (d1 : List ℕ)
    (hroom : cache.entries.length + posts.length ≤ cache.cap)
    (h1 : buffer_posts posts viewed amount ratio cache = some (c1, d1)) :
    buffer_posts posts viewed amount ratio c1 = some (c1, []) := by
  rw [buffer_posts] at h1 ⊢
  cases hcb : current_buffer posts.length viewed amount ratio with
  | none =>
    rw [hcb] at h1
    cases h1
  | some ab =>
    obtain ⟨a, b⟩ := ab
    rw [hcb] at h1
    have h2 : ((posts.drop a).take (b - a)).foldl bufferStep (cache, []) = (c1, d1) :=
      Option.some.inj h1
    have hwlen : ((posts.drop a).take (b - a)).length ≤ posts.length := by
      rw [List.length_take, List.length_drop]
      omega
    obtain ⟨g1, g2, g3, g4⟩ :=
      bufferFold_spec ((posts.drop a).take (b - a)) cache [] (by omega)
    rw [h2] at g3
    have hnoop := bufferFold_noop ((posts.drop a).take (b - a)) c1 [] g3
    show some (((posts.drop a).take (b - a)).foldl bufferStep (c1, [])) = some (c1, [])
    rw [hnoop]

/-- C5 amended witness: an empty capacity-250 cache, visible posts [1, 2],
default options; the first run dispatches both posts, the second run
dispatches nothing. -/
theorem buffer_posts_idempotent_witness :
    buffer_posts [1, 2] 0 25 (3/4)
        (LruCache.mk 250 [(2, (none : Option ℕ)), (1, none)]) =
      some (LruCache.mk 250 [(2, (none : Option ℕ)), (1, none)], []) :=
  buffer_posts_idempotent [1, 2] 0 25 (3/4) (LruCache.empty (Option ℕ) 250)
    (LruCache.mk 250 [(2, (none : Option ℕ)), (1, none)]) [1, 2]
    (by decide)
    (by rw [buffer_posts, show (([1, 2] : List ℕ)).length = 2 from rfl, cb_eval_two]; decide)

/-- A cache at full capacity 250 (as fixed by `State::new`) whose
least-recently-used entry is post 249, with pending entries for posts
0..249 (entry 0 most recent). -/
def fullCache : LruCache (Option ℕ) :=
  ⟨250, (List.range 250).map (fun i => (i, none))⟩

/-- The cache after the first `buffer_posts` run on `fullCache`: putting
post 250 evicted the least-recently-used entry for post 249. -/
def fullCache2 : LruCache (Option ℕ) :=
  ⟨250, (250, none) :: (List.range 249).map (fun i => (i, none))⟩

/-- C5 counterexample: on a reachable state (capacity-250 content cache at
full occupancy whose least-recently-used entry is a window post), running
`buffer_posts` twice with the same focus index dispatches a fetch on the
second run: the first run's `put` of post 250 evicts post 249's entry even
though 249 is in the window, so the second run re-dispatches post 249. -/
theorem buffer_posts_idem_claim_false :
    (buffer_posts [249, 250] 0 25 (3/4) fullCache).bind
        (fun r => (buffer_posts [249, 250] 0 25 (3/4) r.1).map Prod.snd) = some [249]
    ∧ ([249] : List ℕ) ≠ [] := by
  constructor
  · have e1 : buffer_posts [249, 250] 0 25 (3/4) fullCache = some (fullCache2, [250]) := by
      rw [buffer_posts, show (([249, 250] : List ℕ)).length = 2 from rfl, cb_eval_two]
      decide
    rw [e1]
    show (buffer_posts [249, 250] 0 25 (3/4) fullCache2).map Prod.snd = some [249]
    rw [buffer_posts, show (([249, 250] : List ℕ)).length = 2 from rfl, cb_eval_two]
    decide
  · decide

/-- The `Message` enum from src/fetch.rs; opaque payloads (posts, feed,
content, pixels, authenticator) are modelled by naturals. -/
inductive Message where
  | PostsReady (posts : List ℕ) (feed : ℕ)
  | ContentReady (content : ℕ) (id : ℕ)
  | ImageDecoded (pixels : List ℕ) (size : ℕ × ℕ) (id : ℕ)
  | UserLoggedIn (auth : ℕ)
deriving DecidableEq

/-- The `Fetcher` from src/fetch.rs.  The crossbeam channel pair is
modelled by a generation number (each `reset` allocates a fresh channel,
dropping the old receiver) together with the queue of messages sitting in
the current channel.  A cloned sender handle is just the generation of the
channel it sends into. -/
structure Fetcher where
  num_senders : ℕ
  gen : ℕ
  queue : List Message
deriving DecidableEq

/-- `Fetcher::default()`: fresh channel, counter 0. -/
def Fetcher.new : Fetcher := ⟨0, 0, []⟩

/-- A send through a cloned sender handle: if the handle belongs to the
current channel the message is enqueued; otherwise the receiving end was
dropped by `reset` and `let _ = s.send(..)` discards the message and the
error. -/
def Fetcher.send (h : ℕ) (m : Message) (f : Fetcher) : Fetcher :=
  if h = f.gen then { f with queue := f.queue ++ [m] } else f

/-- `Fetcher::try_recv`: non-blocking drain of one message; receiving a
message decrements the in-flight counter. -/
def Fetcher.try_recv (f : Fetcher) : Option Message × Fetcher :=
  match f.queue with
  | [] => (none, f)
  | m :: rest => (some m, { f with num_senders := f.num_senders - 1, queue := rest })

/-- `Fetcher::reset`: a fresh channel pair replaces the old one and the
counter returns to 0. -/
def Fetcher.reset (f : Fetcher) : Fetcher :=
  ⟨0, f.gen + 1, []⟩

/-- `Fetcher::is_working`: whether the counter reports outstanding work. -/
def Fetcher.is_working (f : Fetcher) : Bool :=
  decide (0 < f.num_senders)

/-- The dispatch half of `Fetcher::get_content`: clone the sender and
increment the in-flight counter.  Returns the cloned handle captured by the
spawned thread. -/
def Fetcher.get_content (f : Fetcher) : ℕ × Fetcher :=
  (f.gen, { f with num_senders := f.num_senders + 1 })

/-- The body of the thread spawned by `Fetcher::get_content`:

  if let Ok(content) = post.get_content() \x7b
      let _ = s.send(Message::ContentReady(content, id));
  \x7d

`result` is the outcome of `post.get_content()`: on success exactly one
`ContentReady` message is sent, on failure nothing happens at all. -/
def content_task (h : ℕ) (result : Option ℕ) (id : ℕ) (f : Fetcher) : Fetcher :=
  match result with
  | some content => Fetcher.send h (Message.ContentReady content id) f
  | none => f

/-- C1 counterexample: dispatching a content fetch from a fresh fetcher and
letting the resolution FAIL sends no outcome message at all and never
decrements the counter: the queue stays empty, `try_recv` keeps the counter
at 1 (not the pre-dispatch 0) and `is_working` stays true, contradicting
the claim that exactly one outcome message is sent and the counter returns
to its pre-dispatch value regardless of success or failure. -/
theorem failed_fetch_claim_false :
    ¬ ((content_task Fetcher.new.get_content.1 none 7 Fetcher.new.get_content.2).queue.length = 1
      ∧ ((content_task Fetcher.new.get_content.1 none 7
            Fetcher.new.get_content.2).try_recv).2.num_senders = Fetcher.new.num_senders
      ∧ ((content_task Fetcher.new.get_content.1 none 7
            Fetcher.new.get_content.2).try_recv).2.is_working = false) := by
  decide

/-- C1 amended: the counter is incremented at dispatch; on a SUCCESSFUL
resolution exactly one ContentReady message is sent and processing it via
try_recv returns the counter to its pre-dispatch value; on a FAILED
resolution no message is sent and the counter is never decremented, so
is_working keeps reporting outstanding work forever. -/
theorem get_content_accounting (f : Fetcher) (id c : ℕ) (hq : f.queue = []) :
    f.get_content.2.num_senders = f.num_senders + 1
    ∧ (content_task f.get_content.1 (some c) id f.get_content.2).queue
        = [Message.ContentReady c id]
    ∧ ((content_task f.get_content.1 (some c) id f.get_content.2).try_recv).1
        = some (Message.ContentReady c id)
    ∧ ((content_task f.get_content.1 (some c) id f.get_content.2).try_recv).2.num_senders
        = f.num_senders
    ∧ content_task f.get_content.1 none id f.get_content.2 = f.get_content.2
    ∧ (content_task f.get_content.1 none id f.get_content.2).num_senders
        = f.num_senders + 1
    ∧ ((content_task f.get_content.1 none id f.get_content.2).try_recv).1 = none := by
  have hsend : content_task f.get_content.1 (some c) id f.get_content.2
      = { f with num_senders := f.num_senders + 1,
                 queue := f.queue ++ [Message.ContentReady c id] } := by
    show Fetcher.send f.gen (Message.ContentReady c id)
        { f with num_senders := f.num_senders + 1 }
      = { f with num_senders := f.num_senders + 1,
                 queue := f.queue ++ [Message.ContentReady c id] }
    rw [Fetcher.send, if_pos rfl]
  refine ⟨rfl, ?_, ?_, ?_, rfl, rfl, ?_⟩
  · rw [hsend, hq]
    rfl
  · rw [hsend, hq]
    rfl
  · rw [hsend, hq]
    rfl
  · show (Fetcher.try_recv { f with num_senders := f.num_senders + 1 }).1 = none
    rw [Fetcher.try_recv]
    rw [hq]

/-- C1 amended witness at the fresh fetcher, id 7, content 3. -/
theorem get_content_accounting_witness :
    (content_task Fetcher.new.get_content.1 (some 3) 7 Fetcher.new.get_content.2).queue
      = [Message.ContentReady 3 7] :=
  (get_content_accounting Fetcher.new 7 3 rfl).2.1

/-- C7: after `Fetcher::reset` the in-flight counter is zero (`is_working`
is false) and the fresh channel is empty, and any send through a sender
handle obtained before the reset (its generation is at most the old
generation, while every post-reset state has a strictly larger generation)
leaves the fetcher unchanged — the superseded message is discarded, so
`try_recv` can never return it. -/
theorem reset_guard (f : Fetcher) :
    f.reset.num_senders = 0
    ∧ f.reset.is_working = false
    ∧ f.reset.queue = []
    ∧ f.reset.try_recv = (none, f.reset)
    ∧ f.reset.gen = f.gen + 1
    ∧ (∀ (g : Fetcher) (h : ℕ) (m : Message),
        h ≤ f.gen → f.gen < g.gen → Fetcher.send h m g = g) := by
  refine ⟨rfl, rfl, rfl, rfl, rfl, ?_⟩
  intro g h m hh hg
  rw [Fetcher.send, if_neg (by omega)]

/-- C7 witness: a fetcher at generation 5 with work outstanding; after
reset the counter is 0 and a send through the old generation-5 handle into
the post-reset fetcher is discarded. -/
theorem reset_guard_witness :
    (Fetcher.mk 3 5 [Message.UserLoggedIn 0]).reset.num_senders = 0
    ∧ Fetcher.send 5 (Message.UserLoggedIn 1) (Fetcher.mk 3 5 [Message.UserLoggedIn 0]).reset
        = (Fetcher.mk 3 5 [Message.UserLoggedIn 0]).reset :=
  ⟨(reset_guard (Fetcher.mk 3 5 [Message.UserLoggedIn 0])).1,
    (reset_guard (Fetcher.mk 3 5 [Message.UserLoggedIn 0])).2.2.2.2.2
      (Fetcher.mk 3 5 [Message.UserLoggedIn 0]).reset 5 (Message.UserLoggedIn 1)
      (le_refl 5) (by decide)⟩

end Snui
